import Mathlib

/-!
Verification of the board-game enrichment pipeline: a shallow embedding of
the Batch Runner (`scripts/enrich-boardgames.ts`) and the Loop Driver
(`scripts/loop-enrich-boardgames.ts`).

Rows read from CSV (with `columns: true`) are JavaScript objects mapping
column names to string values; we embed them as association lists with
string keys and string values.  Property read (`row[k]`) is `getField`,
property write (`row[k] = v`, and the key-preserving part of an object
spread) is `setField`.  Remote XML documents are embedded structurally
(`BggXml`), with leaf values kept as the strings the XML parser saw.
-/

namespace BggEnrich

/-- Row: one CSV record, a JavaScript object from field name to value. -/
abbrev Row := List (String × String)

/-- Property read `row[k]`: first binding wins (JS objects have unique keys). -/
def getField : Row → String → Option String
  | [], _ => none
  | p :: r, k => if p.1 = k then some p.2 else getField r k

/-- Property write `row[k] = v`: update in place, or append a new key at the
end (JS object key-insertion order). -/
def setField : Row → String → String → Row
  | [], k, v => [(k, v)]
  | p :: r, k, v => if p.1 = k then (k, v) :: r else p :: setField r k v

/-- Key sequence of a row, in object insertion order. -/
def keysOf (r : Row) : List String := r.map Prod.fst

/-- From the source: `const ENRICH_FIELDS = [...] as const`. -/
def ENRICH_FIELDS : List String :=
  ["description", "minplayers", "maxplayers", "playingtime", "minage",
   "categories", "mechanics", "primaryName"]

/-- JS `String(x)` on a possibly-undefined CSV value. -/
def jsStringOfOpt : Option String → String
  | none => "undefined"
  | some s => s

/-- JS `s.trim()`: strip whitespace from both ends (computed over the
character list). -/
def jsTrim (s : String) : String :=
  String.mk (((s.data.dropWhile Char.isWhitespace).reverse.dropWhile
    Char.isWhitespace).reverse)

/-- The id key of a row: `String(r.id).trim()` as used throughout both scripts. -/
def getId (r : Row) : String := jsTrim (jsStringOfOpt (getField r "id"))

/-- From the source: `isRowEnriched` — the description field, trimmed, is
non-empty (the sole completeness signal). -/
def isRowEnriched (row : Row) : Bool :=
  decide (0 < (jsTrim ((getField row "description").getD "")).length)

/-- One iteration of `mergeEnriched`'s first loop: copy the existing value
of field `f` when it is defined and non-empty. -/
def overlayStep (ex : Row) (m : Row) (f : String) : Row :=
  match getField ex f with
  | some v => if v = "" then m else setField m f v
  | none => m

/-- The first loop of `mergeEnriched`: for each enrichment field, copy the
existing value when it is defined and non-empty. -/
def overlayFields (ex : Row) (m : Row) (fs : List String) : Row :=
  fs.foldl (overlayStep ex) m

/-- One iteration of `mergeEnriched`'s second loop: ensure field `f` exists,
defaulting to the empty string. -/
def ensureStep (m : Row) (f : String) : Row :=
  if (getField m f).isSome then m else setField m f ""

/-- The second loop of `mergeEnriched`: ensure every enrichment field exists,
defaulting to the empty string. -/
def ensureFields (m : Row) (fs : List String) : Row :=
  fs.foldl ensureStep m

/-- From the source: `mergeEnriched(base, existing?)` — spread the base row,
overlay non-empty existing enrichment values, then ensure all enrichment
fields exist. -/
def mergeEnriched (base : Row) (existing : Option Row) : Row :=
  let merged :=
    match existing with
    | some ex => overlayFields ex base ENRICH_FIELDS
    | none => base
  ensureFields merged ENRICH_FIELDS

/-- One name node of the legacy XML payload: the `primary` attribute
(after the parser turned `"true"` into a boolean) and the `#text` content. -/
structure BggName where
  primary : Bool
  text : Option String
deriving DecidableEq

/-- One `boardgame` element, with leaf values as the parser delivered them
(strings for scalar tags, resolved `#text` strings for list items). -/
structure BggGame where
  name : List BggName
  description : Option String
  minplayers : Option String
  maxplayers : Option String
  playingtime : Option String
  age : Option String
  minage : Option String
  boardgamecategory : List String
  boardgamemechanic : List String
deriving DecidableEq

/-- A parsed XML document: `xmlRoot?.boardgames?.boardgame`, `none` when that
path is absent or falsy; a single element is the one-element list. -/
structure BggXml where
  boardgame : Option (List BggGame)
deriving DecidableEq

/-- JS `a ?? b` on option values. -/
def jsCoalesce (a b : Option String) : Option String :=
  match a with
  | some x => some x
  | none => b

/-- Value of a list of decimal digit characters. -/
def digitsVal (l : List Char) : Nat :=
  l.foldl (fun n c => n * 10 + (c.toNat - Char.toNat '0')) 0

/-- JS `Number(s)` restricted to the integral strings this pipeline meets:
whitespace-only input is `0`, a signed decimal integer parses, anything else
is NaN (embedded as `none`). -/
def jsToNumber (s : String) : Option Int :=
  let t := (jsTrim s).data
  if t = [] then some 0
  else
    let body := if t.head? = some '-' ∨ t.head? = some '+' then t.drop 1 else t
    if body ≠ [] ∧ body.all Char.isDigit then
      some ((if t.head? = some '-' then (-1 : Int) else 1) * digitsVal body)
    else none

/-- From the source: `Number(x ?? "") || undefined` — an absent, non-numeric
or zero value becomes `undefined`. -/
def numOr (v : Option String) : Option Int :=
  match jsToNumber (v.getD "") with
  | none => none
  | some n => if n = 0 then none else some n

/-- The `primaryName` selection in `extractEnrichment`: the `#text` of the
first name marked primary, else the `#text` of the first name, else `""`. -/
def primaryNameOf (nameNodes : List BggName) : String :=
  (jsCoalesce ((nameNodes.find? (fun n => n.primary)).bind BggName.text)
      (nameNodes.head?.bind BggName.text)).getD ""

/-- The record `extractEnrichment` returns on success. -/
structure EnrichmentRecord where
  id : String
  primaryName : String
  description : String
  minplayers : Option Int
  maxplayers : Option Int
  playingtime : Option Int
  minage : Option Int
  categories : String
  mechanics : String
deriving DecidableEq

/-- From the source: `extractEnrichment(id, xmlRoot)` — `null` when the
`boardgames.boardgame` path is absent, else a record built from the first
`boardgame` element. -/
def extractEnrichment (id : String) (xmlRoot : BggXml) : Option EnrichmentRecord :=
  match xmlRoot.boardgame with
  | none => none
  | some games =>
    let bg := games.head?
    some
      { id := id
        primaryName := primaryNameOf ((bg.map BggGame.name).getD [])
        description := (bg.bind BggGame.description).getD ""
        minplayers := numOr (bg.bind BggGame.minplayers)
        maxplayers := numOr (bg.bind BggGame.maxplayers)
        playingtime := numOr (bg.bind BggGame.playingtime)
        minage := numOr (jsCoalesce (bg.bind BggGame.age) (bg.bind BggGame.minage))
        categories := String.intercalate "; "
          (((bg.map BggGame.boardgamecategory).getD []).filter (fun c => c != ""))
        mechanics := String.intercalate "; "
          (((bg.map BggGame.boardgamemechanic).getD []).filter (fun m => m != "")) }

/-- JS rendering of a `number | undefined` enrichment value under `?? ""`. -/
def numStr : Option Int → String
  | none => ""
  | some n => toString n

/-- The post-fetch overwrite in `main`: `enriched[i] = { ...row, description:
enrich?.description ?? "", ... }`, assigning the eight enrichment fields in
source order. -/
def applyFetch (row : Row) (enrich : Option EnrichmentRecord) : Row :=
  let r1 := setField row "description" ((enrich.map EnrichmentRecord.description).getD "")
  let r2 := setField r1 "minplayers" (numStr (enrich.bind EnrichmentRecord.minplayers))
  let r3 := setField r2 "maxplayers" (numStr (enrich.bind EnrichmentRecord.maxplayers))
  let r4 := setField r3 "playingtime" (numStr (enrich.bind EnrichmentRecord.playingtime))
  let r5 := setField r4 "minage" (numStr (enrich.bind EnrichmentRecord.minage))
  let r6 := setField r5 "categories" ((enrich.map EnrichmentRecord.categories).getD "")
  let r7 := setField r6 "mechanics" ((enrich.map EnrichmentRecord.mechanics).getD "")
  setField r7 "primaryName" ((enrich.map EnrichmentRecord.primaryName).getD "")

/-- The JS `Map` built from existing output rows keyed by trimmed id:
later entries overwrite earlier ones, so lookup finds the last match. -/
def mapLookup (l : List Row) (id : String) : Option Row :=
  l.reverse.find? (fun r => getId r == id)

/-- The `enriched` working array of `main`: every input row merged with the
previously persisted row of the same id. -/
def enrichedRows (rows existingRows : List Row) : List Row :=
  rows.map (fun r => mergeEnriched r (mapLookup existingRows (getId r)))

/-- The `missingIndices` array of `main`: positions whose merged row fails
the completeness signal, in input order. -/
def missingIndices (l : List Row) : List Nat :=
  (List.range l.length).filter (fun i => !(isRowEnriched (l.getD i [])))

/-- The `toProcess` work batch of `main`: the first `limit` missing positions. -/
def toProcess (rows existingRows : List Row) (limit : Nat) : List Nat :=
  (missingIndices (enrichedRows rows existingRows)).take limit

/-- The guarded body of `main`'s fetch construction: `xml ?
extractEnrichment(id, xml) : null`, over an abstract per-id lookup oracle. -/
def enrichOf (lookup : String → Option BggXml) (id : String) : Option EnrichmentRecord :=
  match lookup id with
  | none => none
  | some xml => extractEnrichment id xml

/-- One iteration of `main`'s batch loop on the row at a selected position:
skip when the trimmed id is empty, otherwise fetch and overwrite. -/
def processRow (lookup : String → Option BggXml) (row : Row) : Row :=
  let id := getId row
  if id = "" then row
  else applyFetch row (enrichOf lookup id)

/-- The full batch run of `main` (after file I/O): merge previous output
into the input rows, select the work batch, process it sequentially in
place, and return the full row set that gets written out. -/
def runBatch (lookup : String → Option BggXml) (rows existingRows : List Row)
    (limit : Nat) : List Row :=
  (toProcess rows existingRows limit).foldl
    (fun acc i => acc.set i (processRow lookup (acc.getD i [])))
    (enrichedRows rows existingRows)

/-- JS `parseInt(s, 10)`: skip whitespace, optional sign, longest digit
prefix; NaN (`none`) when no digits. -/
def jsParseInt (s : String) : Option Int :=
  let t := (jsTrim s).data
  let body := if t.head? = some '-' ∨ t.head? = some '+' then t.drop 1 else t
  let ds := body.takeWhile Char.isDigit
  if ds = [] then none
  else some ((if t.head? = some '-' then (-1 : Int) else 1) * digitsVal ds)

/-- From the source: `const limit = Math.max(0, parseInt(limitStr, 10) || 25)`
with `getArg("limit", "25")` supplying the default string. -/
def parseLimitArg (limitStr : Option String) : Nat :=
  let s := limitStr.getD "25"
  let n : Int :=
    match jsParseInt s with
    | none => 25
    | some k => if k = 0 then 25 else k
  (max 0 n).toNat

/-- The batch run as invoked from the command line, limit string included. -/
def runBatchCli (lookup : String → Option BggXml) (rows existingRows : List Row)
    (limitStr : Option String) : List Row :=
  runBatch lookup rows existingRows (parseLimitArg limitStr)

/-- The guard of `mergeEnriched`'s overlay loop, as a predicate on the
existing row: the field is defined, non-null and non-empty. -/
def neB (ex : Row) (f : String) : Bool :=
  match getField ex f with
  | some v => v != ""
  | none => false

/-- The string value the post-fetch overwrite stores for each enrichment
field (characterizes `applyFetch` field by field). -/
def fetchValue (e : Option EnrichmentRecord) (f : String) : String :=
  if f = "description" then (e.map EnrichmentRecord.description).getD ""
  else if f = "minplayers" then numStr (e.bind EnrichmentRecord.minplayers)
  else if f = "maxplayers" then numStr (e.bind EnrichmentRecord.maxplayers)
  else if f = "playingtime" then numStr (e.bind EnrichmentRecord.playingtime)
  else if f = "minage" then numStr (e.bind EnrichmentRecord.minage)
  else if f = "categories" then (e.map EnrichmentRecord.categories).getD ""
  else if f = "mechanics" then (e.map EnrichmentRecord.mechanics).getD ""
  else if f = "primaryName" then (e.map EnrichmentRecord.primaryName).getD ""
  else ""

/-- Outcome of one HTTP attempt inside `fetchBggXml`: a parsed document, a
non-success status (`!res.ok`), or a thrown transport/parse error. -/
inductive FetchOutcome where
  | ok (xml : BggXml)
  | httpError
  | networkError
deriving DecidableEq

/-- Whether an attempt outcome is a success. -/
def FetchOutcome.isOk : FetchOutcome → Bool
  | .ok _ => true
  | _ => false

/-- From the source: `fetchBggXml(id, attempt)` with `MAX_ATTEMPTS = 6` —
retry on failure while `attempt < 6`, sleeping `1000 * attempt` ms before
the next attempt, returning `null` once attempts are exhausted.  The network
is an oracle from attempt number to outcome; the second component records
the sleeps performed, in order. -/
def fetchBggXml (resp : Nat → FetchOutcome) (attempt : Nat) :
    Option BggXml × List Nat :=
  match resp attempt with
  | .ok xml => (some xml, [])
  | _ =>
    if h : attempt < 6 then
      let r := fetchBggXml resp (attempt + 1)
      (r.1, 1000 * attempt :: r.2)
    else (none, [])
termination_by 6 - attempt
decreasing_by omega

/-- From the Loop Driver source: `readCsv` resolves to the empty row list
when the file does not exist (`none` embeds a nonexistent file). -/
def readCsvIfExists (file : Option (List Row)) : List Row :=
  match file with
  | none => []
  | some rows => rows

/-- The trimmed description the Loop Driver sees for an id in the output:
`(o?.["description"] ?? "").toString().trim()`. -/
def outDescr (outRows : List Row) (id : String) : String :=
  jsTrim (((mapLookup outRows id).bind (fun o => getField o "description")).getD "")

/-- From the Loop Driver source: `countMissing(input, output)` — count the
input rows with a non-empty trimmed id whose output row of the same id
(nonexistent included) has an empty trimmed description. -/
def countMissing (inputRows outRows : List Row) : Nat :=
  inputRows.foldl
    (fun missing r =>
      let id := getId r
      if id = "" then missing
      else if outDescr outRows id = "" then missing + 1 else missing)
    0

/-- How a Loop Driver run ended. -/
inductive LoopExit where
  | done
  | complete
  | subprocessFailed
  | crashed
  | outOfFuel
deriving DecidableEq

/-- Observable outcome of a Loop Driver run: how many subprocess batches were
launched, the process exit code, and which branch ended the loop. -/
structure LoopResult where
  batches : Nat
  exitCode : Nat
  exit : LoopExit
deriving DecidableEq

/-- The `while (true)` loop of the Loop Driver `main` (signal handling
elided; no signal is ever delivered in this model).  `countSeq t` is the
value of the `t`-th `countMissing` call (`none` embeds a thrown read error,
which the top-level catch turns into `process.exit(1)`); `codeSeq b` is the
exit code of the `b`-th spawned batch.  Breaking out of the loop lets `main`
resolve, so the process exits with code 0. -/
def loopRun (countSeq : Nat → Option Nat) (codeSeq : Nat → Int) :
    Nat → Nat → Nat → LoopResult
  | 0, _, batches => ⟨batches, 0, .outOfFuel⟩
  | fuel + 1, calls, batches =>
    match countSeq calls with
    | none => ⟨batches, 1, .crashed⟩
    | some remainingBefore =>
      if remainingBefore = 0 then ⟨batches, 0, .done⟩
      else if codeSeq batches ≠ 0 then ⟨batches + 1, 0, .subprocessFailed⟩
      else
        match countSeq (calls + 1) with
        | none => ⟨batches + 1, 1, .crashed⟩
        | some remainingAfter =>
          if remainingAfter = 0 then ⟨batches + 1, 0, .complete⟩
          else loopRun countSeq codeSeq fuel (calls + 2) (batches + 1)

/-! Association-list basics: reading after writing, key sequences. -/

theorem getField_setField_self (r : Row) (k v : String) :
    getField (setField r k v) k = some v := by
  induction r with
  | nil => simp [setField, getField]
  | cons p r ih =>
    by_cases h : p.1 = k
    · simp [setField, h, getField]
    · simp [setField, h, getField, ih]

theorem getField_setField_ne (r : Row) (k v kk : String) (h : kk ≠ k) :
    getField (setField r k v) kk = getField r kk := by
  induction r with
  | nil => simp [setField, getField, Ne.symm h]
  | cons p r ih =>
    by_cases hp : p.1 = k
    · subst hp
      simp [setField, getField, Ne.symm h]
    · simp only [setField, if_neg hp, getField]
      by_cases hpk : p.1 = kk
      · simp [hpk]
      · simp [hpk, ih]

theorem getField_eq_none_iff (r : Row) (k : String) :
    getField r k = none ↔ k ∉ keysOf r := by
  induction r with
  | nil => simp [getField, keysOf]
  | cons p r ih =>
    by_cases h : p.1 = k
    · subst h
      simp [getField, keysOf]
    · simp [getField, keysOf, h, ih, Ne.symm h]

theorem getField_isSome_iff (r : Row) (k : String) :
    (getField r k).isSome = true ↔ k ∈ keysOf r := by
  rw [Option.isSome_iff_ne_none]
  constructor
  · intro hne
    by_contra hm
    exact hne ((getField_eq_none_iff r k).2 hm)
  · intro hm hnone
    exact ((getField_eq_none_iff r k).1 hnone) hm

theorem keysOf_setField (r : Row) (k v : String) :
    keysOf (setField r k v) =
      if k ∈ keysOf r then keysOf r else keysOf r ++ [k] := by
  induction r with
  | nil => simp [setField, keysOf]
  | cons p r ih =>
    by_cases h : p.1 = k
    · simp [setField, h, keysOf]
    · have hne : ¬ k = p.1 := Ne.symm h
      simp only [setField, if_neg h, keysOf, List.map_cons]
      by_cases hm : k ∈ keysOf r
      · have hmem : k ∈ p.1 :: List.map Prod.fst r := List.mem_cons_of_mem _ hm
        rw [if_pos hmem]
        show p.1 :: keysOf (setField r k v) = p.1 :: keysOf r
        rw [ih, if_pos hm]
      · have hmem : k ∉ p.1 :: List.map Prod.fst r := by
          intro hc
          rcases List.mem_cons.1 hc with hc | hc
          · exact hne hc
          · exact hm hc
        rw [if_neg hmem]
        show p.1 :: keysOf (setField r k v) = p.1 :: (keysOf r ++ [k])
        rw [ih, if_neg hm]

theorem nodup_keysOf_setField (r : Row) (k v : String)
    (h : (keysOf r).Nodup) : (keysOf (setField r k v)).Nodup := by
  rw [keysOf_setField]
  split
  · exact h
  · next hm =>
    simp only [List.nodup_append, List.nodup_cons, List.not_mem_nil,
      not_false_iff, List.nodup_nil, and_true, true_and]
    refine ⟨h, ?_⟩
    intro a ha hb
    simp only [List.mem_singleton] at hb
    exact hm (hb ▸ ha)

theorem row_ext (r1 r2 : Row) (hk : keysOf r1 = keysOf r2)
    (hn : (keysOf r1).Nodup) (hg : ∀ k, getField r1 k = getField r2 k) :
    r1 = r2 := by
  induction r1 generalizing r2 with
  | nil =>
    cases r2 with
    | nil => rfl
    | cons q t2 => simp [keysOf] at hk
  | cons p t ih =>
    cases r2 with
    | nil => simp [keysOf] at hk
    | cons q t2 =>
      simp only [keysOf, List.map_cons, List.cons.injEq] at hk
      obtain ⟨h1, h2⟩ := hk
      simp only [keysOf, List.map_cons, List.nodup_cons] at hn
      obtain ⟨hnp, hnt⟩ := hn
      have hv : p.2 = q.2 := by
        have hgp := hg p.1
        rw [show getField (p :: t) p.1 = some p.2 by simp [getField],
          show getField (q :: t2) p.1 = some q.2 by simp [getField, h1.symm]] at hgp
        exact Option.some.injEq _ _ ▸ hgp
      have ht : t = t2 := by
        refine ih t2 h2 hnt ?_
        intro k
        by_cases hkp : p.1 = k
        · subst hkp
          have e1 : getField t p.1 = none :=
            (getField_eq_none_iff _ _).2 (by simpa [keysOf] using hnp)
          have e2 : getField t2 p.1 = none :=
            (getField_eq_none_iff _ _).2 (by simpa [keysOf, ← h2] using hnp)
          rw [e1, e2]
        · have hgk := hg k
          rw [show getField (p :: t) k = getField t k by simp [getField, hkp],
            show getField (q :: t2) k = getField t2 k by
              simp [getField, h1 ▸ hkp]] at hgk
          exact hgk
      have hpq : p = q := Prod.ext h1 hv
      rw [hpq, ht]

/-! Characterizations of the two merge loops. -/

theorem getField_overlayStep (ex m : Row) (f k : String) :
    getField (overlayStep ex m f) k =
      if k = f ∧ neB ex k then getField ex k else getField m k := by
  by_cases hkf : k = f
  · subst hkf
    cases hex : getField ex k with
    | none => simp [overlayStep, hex, neB]
    | some v =>
      by_cases hv : v = ""
      · simp [overlayStep, hex, neB, hv]
      · simp [overlayStep, hex, neB, hv, getField_setField_self]
  · rw [if_neg (fun hc => hkf hc.1)]
    cases hex : getField ex f with
    | none => simp [overlayStep, hex]
    | some v =>
      by_cases hv : v = ""
      · simp [overlayStep, hex, hv]
      · simp [overlayStep, hex, hv, getField_setField_ne _ _ _ _ hkf]

theorem getField_overlayFields (ex m : Row) (fs : List String) (k : String) :
    getField (overlayFields ex m fs) k =
      if k ∈ fs ∧ neB ex k then getField ex k else getField m k := by
  induction fs generalizing m with
  | nil => simp [overlayFields]
  | cons f fs ih =>
    rw [show overlayFields ex m (f :: fs) = overlayFields ex (overlayStep ex m f) fs
      from rfl, ih]
    by_cases hkfs : k ∈ fs ∧ neB ex k = true
    · rw [if_pos hkfs, if_pos ⟨List.mem_cons_of_mem f hkfs.1, hkfs.2⟩]
    · rw [if_neg hkfs, getField_overlayStep]
      by_cases hkf : k = f
      · subst hkf
        by_cases hne : neB ex k = true
        · rw [if_pos ⟨rfl, hne⟩, if_pos ⟨List.mem_cons_self _ _, hne⟩]
        · rw [if_neg (fun hc => hne hc.2), if_neg (fun hc => hne hc.2)]
      · rw [if_neg (fun hc => hkf hc.1), if_neg
          (fun hc => hkfs ⟨(List.mem_cons.1 hc.1).resolve_left hkf, hc.2⟩)]

theorem getField_ensureStep (m : Row) (f k : String) :
    getField (ensureStep m f) k =
      if k = f ∧ getField m k = none then some "" else getField m k := by
  by_cases hkf : k = f
  · subst hkf
    cases hm : getField m k with
    | none => simp [ensureStep, hm, getField_setField_self]
    | some v => simp [ensureStep, hm]
  · rw [if_neg (fun hc => hkf hc.1)]
    unfold ensureStep
    split
    · rfl
    · exact getField_setField_ne _ _ _ _ hkf

theorem getField_ensureFields (m : Row) (fs : List String) (k : String) :
    getField (ensureFields m fs) k =
      if k ∈ fs ∧ getField m k = none then some "" else getField m k := by
  induction fs generalizing m with
  | nil => simp [ensureFields]
  | cons f fs ih =>
    rw [show ensureFields m (f :: fs) = ensureFields (ensureStep m f) fs from rfl, ih]
    by_cases hkf : k = f
    · subst hkf
      have hstep : getField (ensureStep m k) k =
          if getField m k = none then some "" else getField m k := by
        rw [getField_ensureStep]
        by_cases hm : getField m k = none
        · rw [if_pos ⟨rfl, hm⟩, if_pos hm]
        · rw [if_neg (fun hc => hm hc.2), if_neg hm]
      have hns : getField (ensureStep m k) k ≠ none := by
        rw [hstep]
        by_cases hm : getField m k = none
        · rw [if_pos hm]
          exact Option.noConfusion
        · rw [if_neg hm]
          exact hm
      rw [if_neg (fun hc => hns hc.2), hstep]
      by_cases hm : getField m k = none
      · rw [if_pos hm, if_pos ⟨List.mem_cons_self _ _, hm⟩]
      · rw [if_neg hm, if_neg (fun hc => hm hc.2)]
    · have hstep : getField (ensureStep m f) k = getField m k := by
        rw [getField_ensureStep, if_neg (fun hc => hkf hc.1)]
      rw [hstep]
      by_cases hc : k ∈ fs ∧ getField m k = none
      · rw [if_pos hc, if_pos ⟨List.mem_cons_of_mem f hc.1, hc.2⟩]
      · rw [if_neg hc, if_neg
          (fun hcc => hc ⟨(List.mem_cons.1 hcc.1).resolve_left hkf, hcc.2⟩)]

/-! Characterization of `mergeEnriched`. -/

theorem overlayFields_nil_ex (m : Row) (fs : List String) :
    overlayFields [] m fs = m := by
  induction fs generalizing m with
  | nil => rfl
  | cons f fs ih =>
    rw [show overlayFields [] m (f :: fs) = overlayFields [] (overlayStep [] m f) fs
      from rfl]
    rw [show overlayStep [] m f = m from rfl]
    exact ih m

theorem mergeEnriched_none (base : Row) :
    mergeEnriched base none = mergeEnriched base (some []) := by
  show ensureFields base ENRICH_FIELDS =
    ensureFields (overlayFields [] base ENRICH_FIELDS) ENRICH_FIELDS
  rw [overlayFields_nil_ex]

theorem getField_mergeEnriched_some (base ex : Row) (k : String) :
    getField (mergeEnriched base (some ex)) k =
      if k ∈ ENRICH_FIELDS then
        (if neB ex k then getField ex k
         else if getField base k = none then some "" else getField base k)
      else getField base k := by
  show getField (ensureFields (overlayFields ex base ENRICH_FIELDS) ENRICH_FIELDS) k = _
  rw [getField_ensureFields, getField_overlayFields]
  by_cases hk : k ∈ ENRICH_FIELDS
  · by_cases hne : neB ex k = true
    · have hexne : getField ex k ≠ none := by
        intro hnone
        simp [neB, hnone] at hne
      simp [hk, hne, hexne]
    · by_cases hb : getField base k = none
      · simp [hk, hne, hb]
      · simp [hk, hne, hb]
  · simp [hk]

theorem getField_mergeEnriched_notMem (base : Row) (e : Option Row) (k : String)
    (hk : k ∉ ENRICH_FIELDS) :
    getField (mergeEnriched base e) k = getField base k := by
  cases e with
  | none => rw [mergeEnriched_none, getField_mergeEnriched_some, if_neg hk]
  | some ex => rw [getField_mergeEnriched_some, if_neg hk]

theorem getId_mergeEnriched (base : Row) (e : Option Row) :
    getId (mergeEnriched base e) = getId base := by
  unfold getId
  rw [getField_mergeEnriched_notMem _ _ _ (by decide)]

theorem getField_mergeEnriched_isSome (base : Row) (e : Option Row) (k : String)
    (hk : k ∈ ENRICH_FIELDS) :
    (getField (mergeEnriched base e) k).isSome = true := by
  have step : ∀ ex : Row, (getField (mergeEnriched base (some ex)) k).isSome = true := by
    intro ex
    rw [getField_mergeEnriched_some, if_pos hk]
    by_cases hne : neB ex k = true
    · rw [if_pos hne]
      cases hex : getField ex k with
      | none => simp [neB, hex] at hne
      | some v => rfl
    · rw [if_neg hne]
      by_cases hb : getField base k = none
      · rw [if_pos hb]
        rfl
      · rw [if_neg hb]
        exact Option.isSome_iff_ne_none.2 hb
  cases e with
  | none => rw [mergeEnriched_none]; exact step []
  | some ex => exact step ex

/-! Key sequences produced by the merge. -/

theorem keysOf_overlayStep (ex m : Row) (f : String) :
    keysOf (overlayStep ex m f) =
      if neB ex f ∧ f ∉ keysOf m then keysOf m ++ [f] else keysOf m := by
  cases hex : getField ex f with
  | none =>
    have hstep : overlayStep ex m f = m := by simp only [overlayStep, hex]
    rw [hstep, if_neg (fun hc => by simp [neB, hex] at hc)]
  | some v =>
    by_cases hv : v = ""
    · have hstep : overlayStep ex m f = m := by
        simp only [overlayStep, hex, if_pos hv]
      rw [hstep, if_neg (fun hc => by simp [neB, hex, hv] at hc)]
    · have hstep : overlayStep ex m f = setField m f v := by
        simp only [overlayStep, hex, if_neg hv]
      rw [hstep, keysOf_setField]
      have hne : neB ex f = true := by simp [neB, hex, hv]
      by_cases hm : f ∈ keysOf m
      · rw [if_pos hm, if_neg (fun hc => hc.2 hm)]
      · rw [if_neg hm, if_pos ⟨hne, hm⟩]

theorem keysOf_ensureStep (m : Row) (f : String) :
    keysOf (ensureStep m f) =
      if f ∉ keysOf m then keysOf m ++ [f] else keysOf m := by
  unfold ensureStep
  by_cases hm : f ∈ keysOf m
  · rw [if_pos ((getField_isSome_iff m f).2 hm), if_neg (fun hc => hc hm)]
  · rw [if_neg (fun hs => hm ((getField_isSome_iff m f).1 hs)), keysOf_setField,
      if_neg hm, if_pos hm]

theorem keysOf_overlayFields (ex m : Row) (fs : List String) (hfs : fs.Nodup) :
    keysOf (overlayFields ex m fs) =
      keysOf m ++ fs.filter (fun f => decide (f ∉ keysOf m) && neB ex f) := by
  induction fs generalizing m with
  | nil => simp [overlayFields]
  | cons f fs ih =>
    rw [show overlayFields ex m (f :: fs) = overlayFields ex (overlayStep ex m f) fs
      from rfl]
    obtain ⟨hf, hfs'⟩ := List.nodup_cons.1 hfs
    rw [ih _ hfs']
    by_cases hc : neB ex f = true ∧ f ∉ keysOf m
    · have hkeys : keysOf (overlayStep ex m f) = keysOf m ++ [f] := by
        rw [keysOf_overlayStep, if_pos hc]
      rw [hkeys]
      have hfilter :
          fs.filter (fun g => decide (g ∉ keysOf m ++ [f]) && neB ex g) =
          fs.filter (fun g => decide (g ∉ keysOf m) && neB ex g) := by
        apply List.filter_congr
        intro g hg
        have hgf : g ≠ f := fun h => hf (h ▸ hg)
        simp [List.mem_append, hgf]
      rw [hfilter]
      have hstep : (f :: fs).filter (fun g => decide (g ∉ keysOf m) && neB ex g) =
          f :: fs.filter (fun g => decide (g ∉ keysOf m) && neB ex g) := by
        rw [List.filter_cons_of_pos (by simp [hc.1, hc.2])]
      rw [hstep, List.append_assoc, List.singleton_append]
    · have hkeys : keysOf (overlayStep ex m f) = keysOf m := by
        rw [keysOf_overlayStep, if_neg hc]
      rw [hkeys]
      have hstep : (f :: fs).filter (fun g => decide (g ∉ keysOf m) && neB ex g) =
          fs.filter (fun g => decide (g ∉ keysOf m) && neB ex g) := by
        rw [List.filter_cons_of_neg]
        simp only [Bool.and_eq_true, decide_eq_true_eq, not_and]
        intro hnm
        by_cases hne : neB ex f = true
        · exact absurd ⟨hne, hnm⟩ hc
        · exact fun h => hne h
      rw [hstep]

theorem keysOf_ensureFields (m : Row) (fs : List String) (hfs : fs.Nodup) :
    keysOf (ensureFields m fs) =
      keysOf m ++ fs.filter (fun f => decide (f ∉ keysOf m)) := by
  induction fs generalizing m with
  | nil => simp [ensureFields]
  | cons f fs ih =>
    rw [show ensureFields m (f :: fs) = ensureFields (ensureStep m f) fs from rfl]
    obtain ⟨hf, hfs'⟩ := List.nodup_cons.1 hfs
    rw [ih _ hfs']
    by_cases hc : f ∈ keysOf m
    · have hkeys : keysOf (ensureStep m f) = keysOf m := by
        rw [keysOf_ensureStep, if_neg (fun hcc => hcc hc)]
      rw [hkeys, List.filter_cons_of_neg (by simp [hc])]
    · have hkeys : keysOf (ensureStep m f) = keysOf m ++ [f] := by
        rw [keysOf_ensureStep, if_pos hc]
      rw [hkeys]
      have hfilter : fs.filter (fun g => decide (g ∉ keysOf m ++ [f])) =
          fs.filter (fun g => decide (g ∉ keysOf m)) := by
        apply List.filter_congr
        intro g hg
        have hgf : g ≠ f := fun h => hf (h ▸ hg)
        simp [List.mem_append, hgf]
      rw [hfilter, List.filter_cons_of_pos (by simp [hc]), List.append_assoc,
        List.singleton_append]

theorem keysOf_mergeEnriched_some (base ex : Row) :
    keysOf (mergeEnriched base (some ex)) =
      keysOf base
        ++ ENRICH_FIELDS.filter (fun f => decide (f ∉ keysOf base) && neB ex f)
        ++ ENRICH_FIELDS.filter (fun f => decide (f ∉ keysOf base) && !(neB ex f)) := by
  show keysOf (ensureFields (overlayFields ex base ENRICH_FIELDS) ENRICH_FIELDS) = _
  rw [keysOf_ensureFields _ _ (by decide), keysOf_overlayFields _ _ _ (by decide),
    List.append_assoc, List.append_assoc]
  congr 1
  congr 1
  apply List.filter_congr
  intro f hf
  by_cases hb : f ∈ keysOf base
  · simp [List.mem_append, List.mem_filter, hb]
  · by_cases hne : neB ex f = true
    · simp [List.mem_append, List.mem_filter, hb, hne, hf]
    · simp [List.mem_append, List.mem_filter, hb, hne, hf]

theorem nodup_keysOf_overlayStep (ex m : Row) (f : String)
    (h : (keysOf m).Nodup) : (keysOf (overlayStep ex m f)).Nodup := by
  rw [keysOf_overlayStep]
  split
  · next hc =>
    simp only [List.nodup_append, List.nodup_cons, List.not_mem_nil,
      not_false_iff, List.nodup_nil, and_true, true_and]
    refine ⟨h, ?_⟩
    intro a ha hbm
    simp only [List.mem_singleton] at hbm
    exact hc.2 (hbm ▸ ha)
  · exact h

theorem nodup_keysOf_overlayFields (ex : Row) (fs : List String) :
    ∀ m : Row, (keysOf m).Nodup → (keysOf (overlayFields ex m fs)).Nodup := by
  induction fs with
  | nil => exact fun m h => h
  | cons f fs ih =>
    intro m h
    rw [show overlayFields ex m (f :: fs) = overlayFields ex (overlayStep ex m f) fs
      from rfl]
    exact ih _ (nodup_keysOf_overlayStep ex m f h)

theorem nodup_keysOf_ensureStep (m : Row) (f : String)
    (h : (keysOf m).Nodup) : (keysOf (ensureStep m f)).Nodup := by
  unfold ensureStep
  split
  · exact h
  · exact nodup_keysOf_setField _ _ _ h

theorem nodup_keysOf_ensureFields (fs : List String) :
    ∀ m : Row, (keysOf m).Nodup → (keysOf (ensureFields m fs)).Nodup := by
  induction fs with
  | nil => exact fun m h => h
  | cons f fs ih =>
    intro m h
    rw [show ensureFields m (f :: fs) = ensureFields (ensureStep m f) fs from rfl]
    exact ih _ (nodup_keysOf_ensureStep m f h)

theorem nodup_keysOf_mergeEnriched (base : Row) (e : Option Row)
    (h : (keysOf base).Nodup) : (keysOf (mergeEnriched base e)).Nodup := by
  cases e with
  | none =>
    exact nodup_keysOf_ensureFields _ _ h
  | some ex =>
    exact nodup_keysOf_ensureFields _ _ (nodup_keysOf_overlayFields _ _ _ h)

/-! The value-dependence of the overlay guard, and merge idempotence. -/

theorem neB_eq_true_iff (r : Row) (f : String) :
    neB r f = true ↔ ∃ v, getField r f = some v ∧ v ≠ "" := by
  unfold neB
  cases h : getField r f with
  | none => simp
  | some v => simp [bne_iff_ne]

theorem neB_congr (r1 r2 : Row) (f : String)
    (h : getField r1 f = getField r2 f) : neB r1 f = neB r2 f := by
  unfold neB
  rw [h]

theorem mergeEnriched_idem (base ex : Row) (hb : (keysOf base).Nodup) :
    mergeEnriched base (some (mergeEnriched base (some ex)))
      = mergeEnriched base (some ex) := by
  have hM1some : ∀ k, k ∈ ENRICH_FIELDS →
      getField (mergeEnriched base (some ex)) k =
        if neB ex k then getField ex k
        else if getField base k = none then some "" else getField base k := by
    intro k hk
    rw [getField_mergeEnriched_some, if_pos hk]
  have hneBeq : ∀ f, f ∈ ENRICH_FIELDS → f ∉ keysOf base →
      neB (mergeEnriched base (some ex)) f = neB ex f := by
    intro f hf hfb
    have hbase : getField base f = none := (getField_eq_none_iff base f).2 hfb
    by_cases hne : neB ex f = true
    · rw [neB_congr _ ex f (by rw [hM1some f hf, if_pos hne])]
    · have hM1v : getField (mergeEnriched base (some ex)) f = some "" := by
        rw [hM1some f hf, if_neg hne, if_pos hbase]
      have h1 : neB (mergeEnriched base (some ex)) f = false := by
        simp [neB, hM1v]
      have h2 : neB ex f = false := by simpa using hne
      rw [h1, h2]
  have hA : ENRICH_FIELDS.filter
        (fun f => decide (f ∉ keysOf base) && neB (mergeEnriched base (some ex)) f)
      = ENRICH_FIELDS.filter (fun f => decide (f ∉ keysOf base) && neB ex f) := by
    apply List.filter_congr
    intro f hf
    by_cases hfb : f ∈ keysOf base
    · have hd : decide (f ∉ keysOf base) = false := by simp [hfb]
      rw [hd, Bool.false_and, Bool.false_and]
    · rw [hneBeq f hf hfb]
  have hB : ENRICH_FIELDS.filter
        (fun f => decide (f ∉ keysOf base) && !(neB (mergeEnriched base (some ex)) f))
      = ENRICH_FIELDS.filter (fun f => decide (f ∉ keysOf base) && !(neB ex f)) := by
    apply List.filter_congr
    intro f hf
    by_cases hfb : f ∈ keysOf base
    · have hd : decide (f ∉ keysOf base) = false := by simp [hfb]
      rw [hd, Bool.false_and, Bool.false_and]
    · rw [hneBeq f hf hfb]
  apply row_ext
  · rw [keysOf_mergeEnriched_some, keysOf_mergeEnriched_some base ex, hA, hB]
  · exact nodup_keysOf_mergeEnriched _ _ hb
  · intro k
    by_cases hk : k ∈ ENRICH_FIELDS
    · rw [getField_mergeEnriched_some base (mergeEnriched base (some ex)) k,
        if_pos hk]
      by_cases hne1 : neB (mergeEnriched base (some ex)) k = true
      · rw [if_pos hne1]
      · rw [if_neg hne1]
        have hM1val : getField (mergeEnriched base (some ex)) k = some "" := by
          have hsome := getField_mergeEnriched_isSome base (some ex) k hk
          obtain ⟨v, hv⟩ := Option.isSome_iff_exists.1 hsome
          have hvfalse : neB (mergeEnriched base (some ex)) k = false := by
            simpa using hne1
          have hv0 : v = "" := by
            have := hvfalse
            unfold neB at this
            rw [hv] at this
            simpa [bne_iff_ne] using this
          rw [hv, hv0]
        rw [hM1val]
        by_cases hne : neB ex k = true
        · exfalso
          obtain ⟨v, hgv, hvne⟩ := (neB_eq_true_iff ex k).1 hne
          rw [hM1some k hk, if_pos hne, hgv] at hM1val
          exact hvne (Option.some.inj hM1val)
        · rw [hM1some k hk, if_neg hne] at hM1val
          exact hM1val
    · rw [getField_mergeEnriched_notMem _ _ _ hk,
        getField_mergeEnriched_notMem _ _ _ hk]

/-! Positional behaviour of the batch loop. -/

theorem getD_set_self {α : Type} (l : List α) (i : Nat) (a d : α)
    (h : i < l.length) : (l.set i a).getD i d = a := by
  rw [List.getD_eq_getElem?_getD, List.getElem?_set_self', List.getElem?_eq_getElem h]
  rfl

theorem getD_set_ne {α : Type} (l : List α) (i j : Nat) (a d : α)
    (h : i ≠ j) : (l.set j a).getD i d = l.getD i d := by
  rw [List.getD_eq_getElem?_getD, List.getElem?_set_ne (fun hc => h hc.symm),
    ← List.getD_eq_getElem?_getD]

theorem enrichedRows_length (rows ex : List Row) :
    (enrichedRows rows ex).length = rows.length := by
  unfold enrichedRows
  exact List.length_map _ _

theorem enrichedRows_getD (rows ex : List Row) (i : Nat) (h : i < rows.length) :
    (enrichedRows rows ex).getD i [] =
      mergeEnriched (rows.getD i []) (mapLookup ex (getId (rows.getD i []))) := by
  unfold enrichedRows
  simp [List.getD_eq_getElem?_getD, List.getElem?_map, List.getElem?_eq_getElem h]

theorem toProcess_nodup (rows ex : List Row) (limit : Nat) :
    (toProcess rows ex limit).Nodup := by
  unfold toProcess missingIndices
  exact (List.take_sublist _ _).nodup ((List.nodup_range _).filter _)

theorem toProcess_lt (rows ex : List Row) (limit : Nat) (j : Nat)
    (hj : j ∈ toProcess rows ex limit) : j < rows.length := by
  unfold toProcess missingIndices at hj
  have h1 : j ∈ (List.range (enrichedRows rows ex).length).filter
      (fun i => !(isRowEnriched ((enrichedRows rows ex).getD i []))) :=
    (List.take_sublist _ _).subset hj
  have h2 := List.mem_range.1 (List.mem_filter.1 h1).1
  rwa [enrichedRows_length] at h2

theorem foldl_set_length (g : Row → Row) (idxs : List Nat) :
    ∀ acc : List Row,
      (idxs.foldl (fun a j => a.set j (g (a.getD j []))) acc).length = acc.length := by
  induction idxs with
  | nil => intro acc; rfl
  | cons j idxs ih =>
    intro acc
    rw [List.foldl_cons, ih, List.length_set]

theorem foldl_set_getD (g : Row → Row) (idxs : List Nat) :
    ∀ acc : List Row, idxs.Nodup → (∀ j ∈ idxs, j < acc.length) → ∀ i : Nat,
      ((idxs.foldl (fun a j => a.set j (g (a.getD j []))) acc).getD i []) =
        if i ∈ idxs then g (acc.getD i []) else acc.getD i [] := by
  induction idxs with
  | nil =>
    intro acc _ _ i
    simp
  | cons j idxs ih =>
    intro acc hnd hb i
    obtain ⟨hj, hnd2⟩ := List.nodup_cons.1 hnd
    rw [List.foldl_cons]
    have hb2 : ∀ x ∈ idxs, x < (acc.set j (g (acc.getD j []))).length := by
      intro x hx
      rw [List.length_set]
      exact hb x (List.mem_cons_of_mem _ hx)
    rw [ih _ hnd2 hb2 i]
    by_cases hij : i = j
    · subst hij
      rw [if_neg (fun hc => hj hc), if_pos (List.mem_cons_self _ _)]
      exact getD_set_self _ _ _ _ (hb i (List.mem_cons_self _ _))
    · rw [getD_set_ne _ _ _ _ _ hij]
      by_cases hmem : i ∈ idxs
      · rw [if_pos hmem, if_pos (List.mem_cons_of_mem _ hmem)]
      · rw [if_neg hmem, if_neg (fun hc => (List.mem_cons.1 hc).elim hij hmem)]

theorem runBatch_length (lookup : String → Option BggXml) (rows ex : List Row)
    (limit : Nat) : (runBatch lookup rows ex limit).length = rows.length := by
  unfold runBatch
  rw [foldl_set_length, enrichedRows_length]

theorem runBatch_getD (lookup : String → Option BggXml) (rows ex : List Row)
    (limit : Nat) (i : Nat) :
    (runBatch lookup rows ex limit).getD i [] =
      if i ∈ toProcess rows ex limit
      then processRow lookup ((enrichedRows rows ex).getD i [])
      else (enrichedRows rows ex).getD i [] := by
  unfold runBatch
  rw [foldl_set_getD (processRow lookup) _ _ (toProcess_nodup rows ex limit)
    (fun j hj => by rw [enrichedRows_length]; exact toProcess_lt rows ex limit j hj) i]

/-! Field-level behaviour of the post-fetch overwrite. -/

theorem getField_applyFetch (row : Row) (e : Option EnrichmentRecord)
    (f : String) (hf : f ∈ ENRICH_FIELDS) :
    getField (applyFetch row e) f = some (fetchValue e f) := by
  fin_cases hf <;>
    simp [applyFetch, fetchValue, getField_setField_self, getField_setField_ne]

theorem getField_applyFetch_notMem (row : Row) (e : Option EnrichmentRecord)
    (k : String) (hk : k ∉ ENRICH_FIELDS) :
    getField (applyFetch row e) k = getField row k := by
  simp only [ENRICH_FIELDS, List.mem_cons, List.not_mem_nil, or_false, not_or] at hk
  obtain ⟨h1, h2, h3, h4, h5, h6, h7, h8⟩ := hk
  unfold applyFetch
  rw [getField_setField_ne _ _ _ _ h8, getField_setField_ne _ _ _ _ h7,
    getField_setField_ne _ _ _ _ h6, getField_setField_ne _ _ _ _ h5,
    getField_setField_ne _ _ _ _ h4, getField_setField_ne _ _ _ _ h3,
    getField_setField_ne _ _ _ _ h2, getField_setField_ne _ _ _ _ h1]

/-! Resolution of the id-keyed map over mapped row lists. -/

theorem find?_getId_self (l : List Row) (r : Row)
    (hnd : (l.map getId).Nodup) (hr : r ∈ l) :
    l.find? (fun x => getId x == getId r) = some r := by
  induction l with
  | nil => cases hr
  | cons a l ih =>
    have hnd2 : (getId a :: List.map getId l).Nodup := by
      rw [List.map_cons] at hnd
      exact hnd
    obtain ⟨hna, hnl⟩ := List.nodup_cons.1 hnd2
    by_cases ha : (getId a == getId r) = true
    · rcases List.mem_cons.1 hr with h | h
      · rw [← h]
        simp [List.find?]
      · exfalso
        apply hna
        rw [eq_of_beq ha]
        exact List.mem_map_of_mem getId h
    · have hr2 : r ∈ l := by
        rcases List.mem_cons.1 hr with h | h
        · exfalso
          apply ha
          rw [h]
          exact beq_self_eq_true _
        · exact h
      rw [show List.find? (fun x => getId x == getId r) (a :: l)
          = List.find? (fun x => getId x == getId r) l by
        simp [List.find?, ha]]
      exact ih hnl hr2

theorem mapLookup_map_self (g : Row → Row) (rows : List Row) (r : Row)
    (hid : ∀ x, getId (g x) = getId x)
    (hnd : (rows.map getId).Nodup) (hr : r ∈ rows) :
    mapLookup (rows.map g) (getId r) = some (g r) := by
  unfold mapLookup
  rw [show (rows.map g).reverse = rows.reverse.map g from (List.map_reverse g rows).symm,
    List.find?_map g rows.reverse]
  have hfun : ((fun x => getId x == getId r) ∘ g) = (fun x => getId x == getId r) := by
    funext x
    simp [Function.comp, hid]
  rw [hfun]
  have hndrev : (rows.reverse.map getId).Nodup := by
    rw [show rows.reverse.map getId = (rows.map getId).reverse from
      List.map_reverse getId rows]
    exact List.nodup_reverse.2 hnd
  rw [find?_getId_self rows.reverse r hndrev (List.mem_reverse.2 hr)]
  rfl

theorem getId_enriched (r : Row) (ml : Option Row) :
    getId (mergeEnriched r ml) = getId r := getId_mergeEnriched r ml

theorem enrichedRows_idem (rows ex : List Row)
    (hkeys : ∀ r ∈ rows, (keysOf r).Nodup)
    (hids : (rows.map getId).Nodup) :
    enrichedRows rows (enrichedRows rows ex) = enrichedRows rows ex := by
  show rows.map _ = _
  apply List.map_congr_left
  intro r hr
  rw [show enrichedRows rows ex
      = rows.map (fun x => mergeEnriched x (mapLookup ex (getId x))) from rfl,
    mapLookup_map_self (fun x => mergeEnriched x (mapLookup ex (getId x))) rows r
      (fun x => getId_mergeEnriched x _) hids hr]
  cases hml : mapLookup ex (getId r) with
  | some e => exact mergeEnriched_idem r e (hkeys r hr)
  | none =>
    rw [mergeEnriched_none]
    exact mergeEnriched_idem r [] (hkeys r hr)

theorem runBatch_zero (lookup : String → Option BggXml) (rows ex : List Row) :
    runBatch lookup rows ex 0 = enrichedRows rows ex := rfl

/-! Characterization of the Loop Driver missing count. -/

theorem countMissing_eq (inputRows outRows : List Row) :
    countMissing inputRows outRows =
      (inputRows.filter (fun r =>
        decide (getId r ≠ "") && decide (outDescr outRows (getId r) = ""))).length := by
  have key : ∀ (l : List Row) (acc : Nat),
      l.foldl
        (fun missing r =>
          let id := getId r
          if id = "" then missing
          else if outDescr outRows id = "" then missing + 1 else missing)
        acc
      = acc + (l.filter (fun r =>
          decide (getId r ≠ "") && decide (outDescr outRows (getId r) = ""))).length := by
    intro l
    induction l with
    | nil => intro acc; simp
    | cons r l ih =>
      intro acc
      rw [List.foldl_cons]
      by_cases h1 : getId r = ""
      · rw [show (l.foldl _ (if getId r = "" then acc
            else if outDescr outRows (getId r) = "" then acc + 1 else acc)) =
            l.foldl _ acc by rw [if_pos h1]]
        rw [ih acc, List.filter_cons_of_neg (by simp [h1])]
      · by_cases h2 : outDescr outRows (getId r) = ""
        · rw [show (l.foldl _ (if getId r = "" then acc
              else if outDescr outRows (getId r) = "" then acc + 1 else acc)) =
              l.foldl _ (acc + 1) by rw [if_neg h1, if_pos h2]]
          rw [ih (acc + 1), List.filter_cons_of_pos (by simp [h1, h2]),
            List.length_cons]
          omega
        · rw [show (l.foldl _ (if getId r = "" then acc
              else if outDescr outRows (getId r) = "" then acc + 1 else acc)) =
              l.foldl _ acc by rw [if_neg h1, if_neg h2]]
          rw [ih acc, List.filter_cons_of_neg (by simp [h1, h2])]
  have h0 := key inputRows 0
  unfold countMissing
  rw [h0]
  omega

/-! Behaviour of the retrying lookup client. -/

theorem fetchBggXml_ok (resp : Nat → FetchOutcome) (attempt : Nat) (xml : BggXml)
    (hr : resp attempt = .ok xml) : fetchBggXml resp attempt = (some xml, []) := by
  rw [fetchBggXml.eq_def, hr]

theorem fetchBggXml_fail_step (resp : Nat → FetchOutcome) (attempt : Nat)
    (hr : (resp attempt).isOk = false) (hlt : attempt < 6) :
    fetchBggXml resp attempt =
      ((fetchBggXml resp (attempt + 1)).1,
        1000 * attempt :: (fetchBggXml resp (attempt + 1)).2) := by
  cases hc : resp attempt with
  | ok xml =>
    rw [hc] at hr
    simp [FetchOutcome.isOk] at hr
  | httpError => rw [fetchBggXml.eq_def, hc, dif_pos hlt]
  | networkError => rw [fetchBggXml.eq_def, hc, dif_pos hlt]

theorem fetchBggXml_fail_last (resp : Nat → FetchOutcome) (attempt : Nat)
    (hr : (resp attempt).isOk = false) (hge : ¬ attempt < 6) :
    fetchBggXml resp attempt = (none, []) := by
  cases hc : resp attempt with
  | ok xml =>
    rw [hc] at hr
    simp [FetchOutcome.isOk] at hr
  | httpError => rw [fetchBggXml.eq_def, hc, dif_neg hge]
  | networkError => rw [fetchBggXml.eq_def, hc, dif_neg hge]

theorem fetchBggXml_spec (resp : Nat → FetchOutcome) :
    ∀ (n attempt : Nat), 6 - attempt = n → 1 ≤ attempt →
      ∃ k, k ≤ n ∧
        (fetchBggXml resp attempt).2 =
          (List.range k).map (fun i => 1000 * (attempt + i)) ∧
        ((∀ a, (resp a).isOk = false) →
          (fetchBggXml resp attempt).1 = none ∧ k = n) := by
  intro n
  induction n with
  | zero =>
    intro attempt h6 h1
    have hge : ¬ attempt < 6 := by omega
    cases hc : resp attempt with
    | ok xml =>
      refine ⟨0, Nat.le_refl 0, ?_, ?_⟩
      · rw [fetchBggXml_ok resp attempt xml hc]
        simp
      · intro hall
        have h := hall attempt
        rw [hc] at h
        simp [FetchOutcome.isOk] at h
    | httpError =>
      have hfail : (resp attempt).isOk = false := by rw [hc]; rfl
      refine ⟨0, Nat.le_refl 0, ?_, fun _ => ⟨?_, rfl⟩⟩
      · rw [fetchBggXml_fail_last resp attempt hfail hge]
        simp
      · rw [fetchBggXml_fail_last resp attempt hfail hge]
    | networkError =>
      have hfail : (resp attempt).isOk = false := by rw [hc]; rfl
      refine ⟨0, Nat.le_refl 0, ?_, fun _ => ⟨?_, rfl⟩⟩
      · rw [fetchBggXml_fail_last resp attempt hfail hge]
        simp
      · rw [fetchBggXml_fail_last resp attempt hfail hge]
  | succ n ih =>
    intro attempt h6 h1
    have hlt : attempt < 6 := by omega
    cases hc : resp attempt with
    | ok xml =>
      refine ⟨0, Nat.zero_le _, ?_, ?_⟩
      · rw [fetchBggXml_ok resp attempt xml hc]
        simp
      · intro hall
        have h := hall attempt
        rw [hc] at h
        simp [FetchOutcome.isOk] at h
    | httpError =>
      have hfail : (resp attempt).isOk = false := by rw [hc]; rfl
      obtain ⟨k, hk, hsl, himp⟩ := ih (attempt + 1) (by omega) (by omega)
      refine ⟨k + 1, by omega, ?_, ?_⟩
      · rw [fetchBggXml_fail_step resp attempt hfail hlt]
        show 1000 * attempt :: (fetchBggXml resp (attempt + 1)).2 = _
        rw [hsl, List.range_succ_eq_map, List.map_cons, List.map_map]
        congr 1
        apply List.map_congr_left
        intro a _
        simp only [Function.comp_apply]
        omega
      · intro hall
        obtain ⟨hnone, hkn⟩ := himp hall
        refine ⟨?_, by omega⟩
        rw [fetchBggXml_fail_step resp attempt hfail hlt]
        exact hnone
    | networkError =>
      have hfail : (resp attempt).isOk = false := by rw [hc]; rfl
      obtain ⟨k, hk, hsl, himp⟩ := ih (attempt + 1) (by omega) (by omega)
      refine ⟨k + 1, by omega, ?_, ?_⟩
      · rw [fetchBggXml_fail_step resp attempt hfail hlt]
        show 1000 * attempt :: (fetchBggXml resp (attempt + 1)).2 = _
        rw [hsl, List.range_succ_eq_map, List.map_cons, List.map_map]
        congr 1
        apply List.map_congr_left
        intro a _
        simp only [Function.comp_apply]
        omega
      · intro hall
        obtain ⟨hnone, hkn⟩ := himp hall
        refine ⟨?_, by omega⟩
        rw [fetchBggXml_fail_step resp attempt hfail hlt]
        exact hnone

/-! Small helpers for the claim statements. -/

theorem getField_processRow_notMem (lookup : String → Option BggXml) (row : Row)
    (k : String) (hk : k ∉ ENRICH_FIELDS) :
    getField (processRow lookup row) k = getField row k := by
  simp only [processRow]
  by_cases hid : getId row = ""
  · rw [if_pos hid]
  · rw [if_neg hid, getField_applyFetch_notMem _ _ _ hk]

theorem fetchValue_none (f : String) : fetchValue none f = "" := by
  simp [fetchValue, numStr]

/-! The ten claims. -/

/-- C1: the merge step preserves every enrichment field whose existing
output value (the map entry for the input row's id) is defined and
non-empty — the merged row carries that exact non-empty value, so a
non-empty existing enrichment value is never replaced by an empty one. -/
theorem claim_C1 (rows existingRows : List Row) (i : Nat) (ex : Row)
    (f v : String)
    (hi : i < rows.length)
    (hf : f ∈ ENRICH_FIELDS)
    (hex : mapLookup existingRows (getId (rows.getD i [])) = some ex)
    (hgv : getField ex f = some v) (hv : v ≠ "") :
    getField ((enrichedRows rows existingRows).getD i []) f = some v := by
  rw [enrichedRows_getD rows existingRows i hi, hex, getField_mergeEnriched_some,
    if_pos hf, if_pos ((neB_eq_true_iff ex f).2 ⟨v, hgv, hv⟩), hgv]

/-- C1 witness: a concrete input row and persisted output row. -/
theorem claim_C1_witness :
    getField ((enrichedRows [[("id", "1")]]
        [[("id", "1"), ("description", "D")]]).getD 0 []) "description"
      = some "D" :=
  claim_C1 [[("id", "1")]] [[("id", "1"), ("description", "D")]] 0
    [("id", "1"), ("description", "D")] "description" "D" (by decide) (by decide)
    (by decide) (by decide) (by decide)

/-- C2 counterexample: the claim fails on the code in three ways.  First,
`--limit=0` parses to 25, not 0, because `parseInt(s) || 25` treats the
parsed 0 as falsy.  Second, as a consequence a run invoked with the limit
string "0" does attempt fetches: on a one-row store it fills in the fetched
description "A" where a merge-only pass would have left "".  Third, even
with internal limit 0 (merge-only), running twice differs from running once
on a row-store with duplicate ids. -/
theorem claim_C2_counterexample :
    parseLimitArg (some "0") = 25 ∧
    getField ((runBatchCli
        (fun _ => some ⟨some [⟨[], some "A", none, none, none, none, none, [], []⟩]⟩)
        [[("id", "1")]] [] (some "0")).getD 0 []) "description" = some "A" ∧
    getField ((enrichedRows [[("id", "1")]] []).getD 0 []) "description" = some "" ∧
    runBatch (fun _ => none)
        [[("id", "1"), ("description", "")], [("id", "1"), ("description", "X")]]
        (runBatch (fun _ => none)
          [[("id", "1"), ("description", "")], [("id", "1"), ("description", "X")]] [] 0) 0
      ≠ runBatch (fun _ => none)
        [[("id", "1"), ("description", "")], [("id", "1"), ("description", "X")]] [] 0 := by
  refine ⟨by decide, by decide, by decide, by decide⟩

/-- C2 (amended): with internal limit 0 the run is a pure merge pass — no
fetch is consulted — and on input row-stores whose rows have object-unique
keys and pairwise-distinct trimmed ids the pass is idempotent: a second
merge-only run over the first run's output reproduces it exactly.  The limit
string parses as `Math.max(0, parseInt(s) || 25)`: absent or malformed
values default to 25, and so does "0" (0 is falsy); negative values clamp
to the internal limit 0. -/
theorem claim_C2_amended (lookup lookup2 : String → Option BggXml)
    (rows existingRows : List Row)
    (hkeys : ∀ r ∈ rows, (keysOf r).Nodup)
    (hids : (rows.map getId).Nodup) :
    runBatch lookup rows existingRows 0 = enrichedRows rows existingRows ∧
    runBatch lookup2 rows (runBatch lookup rows existingRows 0) 0
      = runBatch lookup rows existingRows 0 ∧
    parseLimitArg none = 25 ∧ parseLimitArg (some "abc") = 25 ∧
    parseLimitArg (some "0") = 25 ∧ parseLimitArg (some "-7") = 0 ∧
    parseLimitArg (some "40") = 40 := by
  refine ⟨runBatch_zero lookup rows existingRows, ?_, by decide, by decide,
    by decide, by decide, by decide⟩
  rw [runBatch_zero lookup2 rows (runBatch lookup rows existingRows 0),
    runBatch_zero lookup rows existingRows]
  exact enrichedRows_idem rows existingRows hkeys hids

/-- C2 witness: merge-only idempotence on a concrete two-row store. -/
theorem claim_C2_witness :
    runBatch (fun _ => none) [[("id", "1")], [("id", "2")]]
        (runBatch (fun _ => none) [[("id", "1")], [("id", "2")]] [] 0) 0
      = runBatch (fun _ => none) [[("id", "1")], [("id", "2")]] [] 0 :=
  (claim_C2_amended (fun _ => none) (fun _ => none) [[("id", "1")], [("id", "2")]]
    [] (by decide) (by decide)).2.1

/-- C3: for every lookup oracle, every prior output and every limit, the
written row set has exactly as many rows as the input, and row i of the
output agrees with row i of the input on every non-enrichment field — in
particular on `id` — so no row is dropped, added or reordered. -/
theorem claim_C3 (lookup : String → Option BggXml) (rows existingRows : List Row)
    (limit i : Nat) (k : String) (hk : k ∉ ENRICH_FIELDS) :
    (runBatch lookup rows existingRows limit).length = rows.length ∧
    getField ((runBatch lookup rows existingRows limit).getD i []) k
      = getField (rows.getD i []) k ∧
    getId ((runBatch lookup rows existingRows limit).getD i [])
      = getId (rows.getD i []) := by
  have hpres : ∀ kk, kk ∉ ENRICH_FIELDS →
      getField ((runBatch lookup rows existingRows limit).getD i []) kk
        = getField (rows.getD i []) kk := by
    intro kk hkk
    by_cases hi : i < rows.length
    · rw [runBatch_getD]
      have hmerged : getField ((enrichedRows rows existingRows).getD i []) kk
          = getField (rows.getD i []) kk := by
        rw [enrichedRows_getD rows existingRows i hi,
          getField_mergeEnriched_notMem _ _ _ hkk]
      by_cases hm : i ∈ toProcess rows existingRows limit
      · rw [if_pos hm, getField_processRow_notMem _ _ _ hkk, hmerged]
      · rw [if_neg hm, hmerged]
    · have hge : rows.length ≤ i := Nat.le_of_not_lt hi
      rw [List.getD_eq_default _ _ (by rw [runBatch_length]; exact hge),
        List.getD_eq_default _ _ hge]
  refine ⟨runBatch_length lookup rows existingRows limit, hpres k hk, ?_⟩
  unfold getId
  rw [hpres "id" (by decide)]

/-- C3 witness: a concrete one-row run with a passthrough column. -/
theorem claim_C3_witness :
    (runBatch (fun _ => none) [[("id", "1"), ("name", "N")]] [] 1).length
      = [[("id", "1"), ("name", "N")]].length ∧
    getField ((runBatch (fun _ => none) [[("id", "1"), ("name", "N")]] [] 1).getD 0 [])
        "name" = getField (([[("id", "1"), ("name", "N")]] : List Row).getD 0 []) "name" ∧
    getId ((runBatch (fun _ => none) [[("id", "1"), ("name", "N")]] [] 1).getD 0 [])
      = getId (([[("id", "1"), ("name", "N")]] : List Row).getD 0 []) :=
  claim_C3 (fun _ => none) [[("id", "1"), ("name", "N")]] [] 1 0 "name" (by decide)

/-- C4: when a fetch succeeds but the returned record lacks an individual
enrichment field (here `minage`, resolved to `undefined`), the post-fetch
overwrite stores the empty string for that field in every row — including a
row whose previously merged value for that field was non-empty.  Prior
enrichment protects whole rows only at the merge step, not here. -/
theorem claim_C4 (row : Row) (rec : EnrichmentRecord) (v : String)
    (hminage : rec.minage = none)
    (hprior : getField row "minage" = some v) (hv : v ≠ "") :
    getField (applyFetch row (some rec)) "minage" = some "" := by
  rw [getField_applyFetch row (some rec) "minage" (by decide)]
  simp [fetchValue, hminage, numStr]

/-- C4 witness: a row holding minage "10" blanked by a sparse success. -/
theorem claim_C4_witness :
    getField (applyFetch [("minage", "10")]
        (some ⟨"1", "G", "some words", none, none, none, none, "", ""⟩)) "minage"
      = some "" :=
  claim_C4 [("minage", "10")] ⟨"1", "G", "some words", none, none, none, none, "", ""⟩
    "10" rfl rfl (by decide)

/-- C5: a work-batch row whose lookup yields no usable record gets all eight
enrichment fields set to the empty string, and its failure aborts nothing:
the output still has the full row count and every other work-batch row is
still processed normally. -/
theorem claim_C5 (lookup : String → Option BggXml) (rows existingRows : List Row)
    (limit i : Nat)
    (hi : i ∈ toProcess rows existingRows limit)
    (hid : getId ((enrichedRows rows existingRows).getD i []) ≠ "")
    (hfail : enrichOf lookup (getId ((enrichedRows rows existingRows).getD i []))
      = none) :
    (runBatch lookup rows existingRows limit).length = rows.length ∧
    (∀ f ∈ ENRICH_FIELDS,
      getField ((runBatch lookup rows existingRows limit).getD i []) f = some "") ∧
    (∀ j ∈ toProcess rows existingRows limit, j ≠ i →
      (runBatch lookup rows existingRows limit).getD j []
        = processRow lookup ((enrichedRows rows existingRows).getD j [])) := by
  refine ⟨runBatch_length lookup rows existingRows limit, ?_, ?_⟩
  · intro f hf
    rw [runBatch_getD, if_pos hi]
    simp only [processRow]
    rw [if_neg hid, hfail, getField_applyFetch _ none f hf, fetchValue_none]
  · intro j hj _
    rw [runBatch_getD, if_pos hj]

/-- C5 witness: one row whose lookup always fails. -/
theorem claim_C5_witness :
    (runBatch (fun _ => none) [[("id", "1")]] [] 1).length
      = ([[("id", "1")]] : List Row).length ∧
    (∀ f ∈ ENRICH_FIELDS,
      getField ((runBatch (fun _ => none) [[("id", "1")]] [] 1).getD 0 []) f
        = some "") ∧
    (∀ j ∈ toProcess [[("id", "1")]] [] 1, j ≠ 0 →
      (runBatch (fun _ => none) [[("id", "1")]] [] 1).getD j []
        = processRow (fun _ => none) ((enrichedRows [[("id", "1")]] []).getD j [])) :=
  claim_C5 (fun _ => none) [[("id", "1")]] [] 1 0 (by decide) (by decide) rfl


/-- C6: for every network behaviour the lookup client makes at most 6
attempts (at most 5 sleeps separate them); the sleep before retry number
`i + 2` is `(i + 1) * 1000` ms (linear backoff, attempt number times one
second); and when every attempt fails it returns `null` — the value
`(none, [1000, 2000, 3000, 4000, 5000])` — rather than raising. -/
theorem claim_C6 (resp : Nat → FetchOutcome) :
    (fetchBggXml resp 1).2.length + 1 ≤ 6 ∧
    (∃ k, k ≤ 5 ∧
      (fetchBggXml resp 1).2 = (List.range k).map (fun i => 1000 * (1 + i))) ∧
    ((∀ a, (resp a).isOk = false) →
      fetchBggXml resp 1 = (none, [1000, 2000, 3000, 4000, 5000])) := by
  obtain ⟨k, hk, hsl, himp⟩ := fetchBggXml_spec resp 5 1 (by omega) (by omega)
  refine ⟨?_, ⟨k, hk, hsl⟩, ?_⟩
  · rw [hsl, List.length_map, List.length_range]
    omega
  · intro hall
    obtain ⟨hnone, hk5⟩ := himp hall
    subst hk5
    refine Prod.ext hnone ?_
    rw [hsl]
    decide

/-- C6 witness: a permanently failing network. -/
theorem claim_C6_witness :
    fetchBggXml (fun _ => FetchOutcome.httpError) 1
      = (none, [1000, 2000, 3000, 4000, 5000]) :=
  (claim_C6 (fun _ => FetchOutcome.httpError)).2.2 (fun _ => rfl)

/-- C7 counterexample: a row with empty trimmed id in the work batch is
skipped, but its enrichment fields are not left empty — the `categories`
value "Strategy" carried in from the input row survives the skip, refuting
the claim that the skip leaves the enrichment fields empty. -/
theorem claim_C7_counterexample :
    0 ∈ toProcess [[("id", ""), ("description", ""), ("categories", "Strategy")]] [] 1 ∧
    getId ((enrichedRows [[("id", ""), ("description", ""), ("categories", "Strategy")]]
      []).getD 0 []) = "" ∧
    getField ((runBatch (fun _ => none)
        [[("id", ""), ("description", ""), ("categories", "Strategy")]] [] 1).getD 0 [])
      "categories" = some "Strategy" := by
  refine ⟨by decide, by decide, by decide⟩

/-- C7 (amended): a work-batch row whose trimmed id is empty is skipped —
the remote lookup is never consulted and the row is written exactly as the
merge step left it (its enrichment fields are therefore empty only when
neither input nor prior output supplied values) — and its id stays empty,
so on any run, this one or a later one, in which it is selected into the
work batch it is skipped again. -/
theorem claim_C7_amended (lookup : String → Option BggXml)
    (rows existingRows : List Row) (limit i : Nat)
    (hi : i ∈ toProcess rows existingRows limit)
    (hid : getId ((enrichedRows rows existingRows).getD i []) = "") :
    (runBatch lookup rows existingRows limit).getD i []
      = (enrichedRows rows existingRows).getD i [] ∧
    getId ((runBatch lookup rows existingRows limit).getD i []) = "" := by
  have h1 : (runBatch lookup rows existingRows limit).getD i []
      = (enrichedRows rows existingRows).getD i [] := by
    rw [runBatch_getD, if_pos hi]
    simp only [processRow]
    rw [if_pos hid]
  refine ⟨h1, ?_⟩
  rw [h1]
  exact hid

/-- C7 witness: a concrete empty-id row in the work batch. -/
theorem claim_C7_witness :
    (runBatch (fun _ => none) [[("id", ""), ("description", "")]] [] 1).getD 0 []
      = (enrichedRows [[("id", ""), ("description", "")]] []).getD 0 [] ∧
    getId ((runBatch (fun _ => none) [[("id", ""), ("description", "")]] [] 1).getD 0 [])
      = "" :=
  claim_C7_amended (fun _ => none) [[("id", ""), ("description", "")]] [] 1 0
    (by decide) (by decide)

/-- C8 counterexample: with one row always missing and the first spawned
batch exiting with code 1, the loop stops after that single batch in the
subprocess-failure branch, and the driver process exits with code 0 — not
the claimed exit code 1. -/
theorem claim_C8_counterexample :
    loopRun (fun _ => some 1) (fun _ => 1) 2 0 0
      = ⟨1, 0, LoopExit.subprocessFailed⟩ ∧ (0 : Nat) ≠ 1 := by
  refine ⟨by decide, by decide⟩

/-- C8 (amended): when the missing count is non-zero and the spawned Batch
Runner exits non-zero, the loop stops immediately after that batch — no
further batch is attempted — and the Loop Driver terminates with exit code
0, the same code as normal completion; when the missing count is zero the
loop ends in the DONE branch, also with exit code 0.  Exit code 1 is
produced only by a thrown error (the `crashed` branch). -/
theorem claim_C8_amended (countSeq : Nat → Option Nat) (codeSeq : Nat → Int)
    (fuel calls batches c : Nat)
    (hcount : countSeq calls = some c) :
    (c ≠ 0 → codeSeq batches ≠ 0 →
      loopRun countSeq codeSeq (fuel + 1) calls batches
        = ⟨batches + 1, 0, LoopExit.subprocessFailed⟩) ∧
    (c = 0 →
      loopRun countSeq codeSeq (fuel + 1) calls batches
        = ⟨batches, 0, LoopExit.done⟩) := by
  constructor
  · intro hc hcode
    simp only [loopRun, hcount]
    rw [if_neg hc, if_pos hcode]
  · intro hc
    subst hc
    simp only [loopRun, hcount]
    exact if_pos trivial

/-- C8 witness: a failing first batch under a non-zero missing count. -/
theorem claim_C8_witness :
    loopRun (fun _ => some 1) (fun _ => 1) 1 0 0
      = ⟨1, 0, LoopExit.subprocessFailed⟩ :=
  (claim_C8_amended (fun _ => some 1) (fun _ => 1) 0 0 0 1 rfl).1
    (by decide) (by decide)

/-- C9: a numeric enrichment field that parses to the number 0 (here
`minplayers` carrying the string "0") is treated as unset by the extractor
(`Number(x) || undefined`), so the batch overwrite stores the empty string
for it; a present zero is indistinguishable from an absent or non-numeric
value. -/
theorem claim_C9 (id s : String) (g : BggGame) (row : Row)
    (hs : jsToNumber s = some 0) (hgmin : g.minplayers = some s) :
    (extractEnrichment id ⟨some [g]⟩).bind EnrichmentRecord.minplayers = none ∧
    getField (applyFetch row (extractEnrichment id ⟨some [g]⟩)) "minplayers"
      = some "" ∧
    numOr (some s) = numOr none ∧ numOr (some s) = numOr (some "abc") := by
  have hnum : numOr (some s) = none := by
    simp [numOr, hs]
  have hmin : (extractEnrichment id ⟨some [g]⟩).bind EnrichmentRecord.minplayers
      = none := by
    simp [extractEnrichment, hgmin, hnum]
  refine ⟨hmin, ?_, by rw [hnum]; decide, by rw [hnum]; decide⟩
  rw [getField_applyFetch row _ "minplayers" (by decide)]
  have hfv : fetchValue (extractEnrichment id ⟨some [g]⟩) "minplayers"
      = numStr ((extractEnrichment id ⟨some [g]⟩).bind EnrichmentRecord.minplayers) := by
    simp [fetchValue]
  rw [hfv, hmin]
  rfl

/-- C9 witness: a game record whose minplayers tag is the string "0". -/
theorem claim_C9_witness :
    (extractEnrichment "7" ⟨some [⟨[], some "d", some "0", none, none, none, none, [], []⟩]⟩).bind
        EnrichmentRecord.minplayers = none ∧
    getField (applyFetch [("minplayers", "4")]
        (extractEnrichment "7" ⟨some [⟨[], some "d", some "0", none, none, none, none, [], []⟩]⟩))
      "minplayers" = some "" ∧
    numOr (some "0") = numOr none ∧ numOr (some "0") = numOr (some "abc") :=
  claim_C9 "7" "0" ⟨[], some "d", some "0", none, none, none, none, [], []⟩
    [("minplayers", "4")] (by decide) rfl

/-- C10: the Loop Driver missing count ignores every input row whose
trimmed id is empty; it is zero exactly when all remaining (non-empty-id)
rows meet the completeness signal, and a zero count makes the loop end in
the DONE branch; a nonexistent output file reads as the empty row set, so
on a first iteration every non-empty-id input row counts as missing. -/
theorem claim_C10 (inputRows outRows : List Row)
    (countSeq : Nat → Option Nat) (codeSeq : Nat → Int)
    (fuel calls batches : Nat)
    (hsat : ∀ r ∈ inputRows, getId r ≠ "" → outDescr outRows (getId r) ≠ "")
    (hcount0 : countSeq calls = some 0) :
    countMissing inputRows outRows
      = countMissing (inputRows.filter (fun r => decide (getId r ≠ ""))) outRows ∧
    countMissing inputRows outRows = 0 ∧
    readCsvIfExists none = [] ∧
    countMissing inputRows (readCsvIfExists none)
      = (inputRows.filter (fun r => decide (getId r ≠ ""))).length ∧
    loopRun countSeq codeSeq (fuel + 1) calls batches
      = ⟨batches, 0, LoopExit.done⟩ := by
  refine ⟨?_, ?_, rfl, ?_, ?_⟩
  · rw [countMissing_eq, countMissing_eq, List.filter_filter]
    congr 1
    apply List.filter_congr
    intro r _
    by_cases h : getId r = ""
    · simp [h]
    · simp [h]
  · rw [countMissing_eq]
    rw [show (inputRows.filter (fun r =>
        decide (getId r ≠ "") && decide (outDescr outRows (getId r) = ""))) = [] from ?_]
    · rfl
    · rw [List.filter_eq_nil_iff]
      intro r hr
      by_cases h : getId r = ""
      · simp [h]
      · simp [h, hsat r hr h]
  · rw [countMissing_eq]
    have hdesc : ∀ id, outDescr (readCsvIfExists none) id = "" := fun _ => rfl
    congr 1
    apply List.filter_congr
    intro r _
    by_cases h : getId r = ""
    · simp [h]
    · simp [h, hdesc]
  · simp only [loopRun, hcount0]
    exact if_pos trivial

/-- C10 witness: a one-row store already enriched in the output. -/
theorem claim_C10_witness :
    countMissing [[("id", "1")]] [[("id", "1"), ("description", "D")]]
      = countMissing (([[("id", "1")]] : List Row).filter
          (fun r => decide (getId r ≠ ""))) [[("id", "1"), ("description", "D")]] ∧
    countMissing [[("id", "1")]] [[("id", "1"), ("description", "D")]] = 0 ∧
    readCsvIfExists none = [] ∧
    countMissing [[("id", "1")]] (readCsvIfExists none)
      = (([[("id", "1")]] : List Row).filter (fun r => decide (getId r ≠ ""))).length ∧
    loopRun (fun _ => some 0) (fun _ => 0) 1 0 0 = ⟨0, 0, LoopExit.done⟩ :=
  claim_C10 [[("id", "1")]] [[("id", "1"), ("description", "D")]]
    (fun _ => some 0) (fun _ => 0) 0 0 0 (by decide) rfl


end BggEnrich
